import Mathlib

/-!
Shallow embedding of the core of the alto ERC-4337 bundler:

* the in-memory user-operation mempool (`MemoryStore`) with its four
  lifecycle lists and the nonce-availability reconciliation
  (`updateAvailableUserOperations`);
* the gas-price manager (chain-specific bump rule, next-base-fee fallback,
  EIP-1559 estimation fallbacks, sliding-window fee queues,
  `validateGasPrice`);
* the local sender-manager wallet pool.

JavaScript `bigint` arithmetic is embedded as `Int` with explicit
truncating division (`jsDiv`, division toward zero, which is what the
JavaScript `/` operator does on `bigint`).  JavaScript arrays are embedded
as `List`s: `push` is append at the tail, `shift` removes the head,
`splice(i, 1)` removes the element at index `i`, `findIndex` finds the
first matching index.  External RPC results (multicall, fee estimators,
fee history, latest block) are passed in as explicit arguments.
-/

namespace AltoSpec

/-- JavaScript `bigint` division truncates toward zero. -/
def jsDiv (a b : Int) : Int := Int.tdiv a b

/-- `viem`'s `parseGwei`, restricted to whole gwei amounts: gwei → wei. -/
def parseGwei (n : Int) : Int := n * 1000000000

/-- 20-byte hex address (the embedding never inspects its characters). -/
abbrev Address := String

/-- 32-byte hex string (user-operation hashes). -/
abbrev HexData32 := String

/-! ## Mempool data model (`@alto/types`, mempool module)

Only the fields the mempool code reads are carried: `sender` and the packed
256-bit `nonce` of the user operation, and the `userOperationHash` of its
info record.  The remaining payload (calldata, gas fields, signature,
entryPoint, timestamps, `TransactionInfo`) is never inspected by the
operations under verification and is omitted. -/

structure UserOperation where
  sender : Address
  /-- 256-bit packed nonce: `(key << 64) | value`. -/
  nonce : Nat
  deriving DecidableEq, Repr

structure UserOperationInfo where
  userOperation : UserOperation
  userOperationHash : HexData32
  deriving DecidableEq, Repr

/-- `SubmittedUserOperation` pairs a `UserOperationInfo` with the broadcast
`TransactionInfo`; the transaction payload is never read by the store
operations and is omitted. -/
structure SubmittedUserOperation where
  userOperation : UserOperationInfo
  deriving DecidableEq, Repr

/-- Modelled from the spec: `getNonceKeyAndValue` from `@alto/utils` is not
in the provided sources; per the spec the nonce key is the upper 192 bits
and the nonce value the lower 64 bits of the 256-bit nonce. -/
def getNonceKeyAndValue (op : UserOperation) : Nat × Nat :=
  (op.nonce / 2 ^ 64, op.nonce % 2 ^ 64)

/-- The `(sender, nonceKey)` pair of a user operation.  The source builds
the string `` `${op.sender}_${nonceKey}` `` and parses it back with
`parseSenderNonceKeyPair`; since senders are underscore-free hex addresses
and the nonce key round-trips through its decimal representation, this
string round-trip is the identity on pairs and is embedded as such. -/
def getSenderNonceKeyPair (op : UserOperation) : Address × Nat :=
  (op.sender, (getNonceKeyAndValue op).1)

/-- Helper for `jsSetDedup`: drop the elements already seen, keeping the
first occurrence of each remaining element. -/
def jsSetDedupAux {α : Type} [DecidableEq α] (seen : List α) : List α → List α
  | [] => []
  | a :: l =>
      if a ∈ seen then jsSetDedupAux seen l
      else a :: jsSetDedupAux (seen ++ [a]) l

/-- JavaScript `Set` iteration order: insertion order, keeping the first
occurrence of each element (`new Set([...])` then spread). -/
def jsSetDedup {α : Type} [DecidableEq α] (l : List α) : List α :=
  jsSetDedupAux [] l

/-- The four lifecycle lists of `MemoryStore`. -/
structure MemoryStore where
  outstanding : List UserOperationInfo
  availableOutstanding : List UserOperationInfo
  processing : List UserOperationInfo
  submitted : List SubmittedUserOperation
  deriving DecidableEq, Repr

def emptyStore : MemoryStore :=
  { outstanding := [], availableOutstanding := [], processing := [], submitted := [] }

def addOutstanding (op : UserOperationInfo) (s : MemoryStore) : MemoryStore :=
  { s with outstanding := s.outstanding ++ [op] }

def addProcessing (op : UserOperationInfo) (s : MemoryStore) : MemoryStore :=
  { s with processing := s.processing ++ [op] }

def addSubmitted (op : SubmittedUserOperation) (s : MemoryStore) : MemoryStore :=
  { s with submitted := s.submitted ++ [op] }

/-- The hashes stored in a list of user-operation infos. -/
def hashes (l : List UserOperationInfo) : List HexData32 :=
  l.map (fun op => op.userOperationHash)

/-- `findIndex` + `splice(index, 1)`: remove the first element with the
given hash (identity when absent, matching the early-return path). -/
def removeFirstByHash (h : HexData32) : List UserOperationInfo → List UserOperationInfo
  | [] => []
  | op :: rest =>
      if op.userOperationHash = h then rest else op :: removeFirstByHash h rest

def removeOutstanding (h : HexData32) (s : MemoryStore) : MemoryStore :=
  if h ∈ hashes s.outstanding then
    let s1 := { s with outstanding := removeFirstByHash h s.outstanding }
    if h ∈ hashes s.availableOutstanding then
      { s1 with availableOutstanding := removeFirstByHash h s.availableOutstanding }
    else
      s1
  else
    s

def removeProcessing (h : HexData32) (s : MemoryStore) : MemoryStore :=
  if h ∈ hashes s.processing then
    { s with processing := removeFirstByHash h s.processing }
  else
    s

def removeSubmitted (h : HexData32) (s : MemoryStore) : MemoryStore :=
  if h ∈ hashes (s.submitted.map (fun sub => sub.userOperation)) then
    { s with
        submitted :=
          (removeFirstByHash h (s.submitted.map (fun sub => sub.userOperation))).map
            (fun op => SubmittedUserOperation.mk op) }
  else
    s

def clear (from_ : String) (s : MemoryStore) : MemoryStore :=
  if from_ = "outstanding" then { s with outstanding := [] }
  else if from_ = "processing" then { s with processing := [] }
  else if from_ = "submitted" then { s with submitted := [] }
  else s

/-- Per-entry result of the batched `getNonce` multicall. -/
inductive CallResult where
  | success (nonceValue : Nat)
  | failure
  deriving DecidableEq, Repr

/-- Outcome of the whole `publicClient.multicall` call: either the batched
call throws, or it returns one per-pair status.  Positional alignment of
`results[i]` with the pair list is embedded as a function of the pair. -/
inductive MulticallOutcome where
  | throw
  | results (oracle : Address → Nat → CallResult)

/-- The promotion loop of `updateAvailableUserOperations`: for each
`(sender, nonceKey)` pair in order, on a successful `getNonce` result push
every outstanding operation matching `(sender, nonceKey, nonceValue)`, in
snapshot order. -/
def promoteAll (oracle : Address → Nat → CallResult) (outs : List UserOperationInfo) :
    List (Address × Nat) → List UserOperationInfo
  | [] => []
  | p :: ps =>
      (match oracle p.1 p.2 with
        | CallResult.success nv =>
            outs.filter (fun op =>
              op.userOperation.sender = p.1 ∧
              (getNonceKeyAndValue op.userOperation).1 = p.2 ∧
              (getNonceKeyAndValue op.userOperation).2 = nv)
        | CallResult.failure => []) ++ promoteAll oracle outs ps

/-- `updateAvailableUserOperations(publicClient, entryPoint)`.  Returns the
store after the call together with `true` when the batched multicall threw
(in the source the exception propagates before the single store mutation —
the final assignment to `avaiableOutstandingUserOperations` — so the store
is returned unchanged in that case). -/
def updateAvailableUserOperations (s : MemoryStore) (mc : MulticallOutcome) :
    MemoryStore × Bool :=
  let outstandingOps := s.outstanding
  let allSendersAndNonceKeys :=
    jsSetDedup (outstandingOps.map (fun op => getSenderNonceKeyPair op.userOperation))
  match mc with
  | MulticallOutcome.throw => (s, true)
  | MulticallOutcome.results oracle =>
      ({ s with
          availableOutstanding := promoteAll oracle outstandingOps allSendersAndNonceKeys },
        false)

/-! ## Gas-price manager -/

/-- EIP-1559 fee pair (`GasPriceParameters` from `@alto/types`). -/
structure GasPriceParameters where
  maxFeePerGas : Int
  maxPriorityFeePerGas : Int
  deriving DecidableEq, Repr

/-- The configuration fields `bumpTheGasPrice` and its helpers read:
the chain id of the configured public client and `gasPriceBump`. -/
structure GasConfig where
  chainId : Nat
  gasPriceBump : Int
  deriving DecidableEq, Repr

def MIN_POLYGON_GAS_PRICE : Int := parseGwei 31
def MIN_MUMBAI_GAS_PRICE : Int := parseGwei 1

/-- Chain ids used by the gas-price code (`viem/chains` and the local
`ChainId` enum). -/
def polygonChainId : Nat := 137
def mumbaiChainId : Nat := 80001
def celoChainId : Nat := 42220
def celoAlfajoresChainId : Nat := 44787
def dfkChainId : Nat := 53935
def avalancheChainId : Nat := 43114

def getDefaultGasFee (config : GasConfig) : Int :=
  if config.chainId = polygonChainId then MIN_POLYGON_GAS_PRICE
  else if config.chainId = mumbaiChainId then MIN_MUMBAI_GAS_PRICE
  else 0

/-- `bumpTheGasPrice`: raise the priority fee to the chain floor, raise the
max fee to the priority fee, multiply both by `gasPriceBump / 100`, then
apply the Celo / DFK / Avalanche chain overrides. -/
def bumpTheGasPrice (config : GasConfig) (gasPrice : GasPriceParameters) :
    GasPriceParameters :=
  let bumpAmount := config.gasPriceBump
  let maxPriorityFeePerGas := max gasPrice.maxPriorityFeePerGas (getDefaultGasFee config)
  let maxFeePerGas := max gasPrice.maxFeePerGas maxPriorityFeePerGas
  let result : GasPriceParameters :=
    { maxFeePerGas := jsDiv (maxFeePerGas * bumpAmount) 100,
      maxPriorityFeePerGas := jsDiv (maxPriorityFeePerGas * bumpAmount) 100 }
  if config.chainId = celoChainId ∨ config.chainId = celoAlfajoresChainId then
    let maxFee := max result.maxFeePerGas result.maxPriorityFeePerGas
    { maxFeePerGas := maxFee, maxPriorityFeePerGas := maxFee }
  else if config.chainId = dfkChainId then
    { maxFeePerGas := max 5000000000 result.maxFeePerGas,
      maxPriorityFeePerGas := max 5000000000 result.maxPriorityFeePerGas }
  else if config.chainId = avalancheChainId then
    { maxFeePerGas := max 1500000000 result.maxFeePerGas,
      maxPriorityFeePerGas := max 1500000000 result.maxPriorityFeePerGas }
  else
    result

/-- The arithmetic core of `getNextBaseFee`, as a function of the latest
block's base fee (after the `block.baseFeePerGas || getGasPrice()`
fallback), its `gasUsed` and its `gasLimit`. -/
def getNextBaseFee (currentBaseFeePerGas currentGasUsed gasLimit : Int) : Int :=
  let gasTarget := jsDiv gasLimit 2
  if currentGasUsed = gasTarget then
    currentBaseFeePerGas
  else if currentGasUsed > gasTarget then
    let gasUsedDelta := currentGasUsed - gasTarget
    let baseFeePerGasDelta :=
      max (jsDiv (jsDiv (currentBaseFeePerGas * gasUsedDelta) gasTarget) 8) 1
    currentBaseFeePerGas + baseFeePerGasDelta
  else
    let gasUsedDelta := currentGasUsed - gasTarget
    let baseFeePerGasDelta :=
      jsDiv (jsDiv (currentBaseFeePerGas * gasUsedDelta) gasTarget) 8
    currentBaseFeePerGas - baseFeePerGasDelta

/-- `getFallBackMaxPriorityFeePerGas`, as a function of the
`getFeeHistory` reward matrix (`none` embeds an absent/null `reward`
field; each row's first entry is the 20th-percentile reward, `headI`
standing for `cur[0]`). -/
def getFallBackMaxPriorityFeePerGas (reward : Option (List (List Int)))
    (gasPrice : Int) : Int :=
  match reward with
  | none => gasPrice
  | some rows =>
      let feeAverage := jsDiv (rows.foldl (fun acc cur => cur.headI + acc) 0) 10
      min feeAverage gasPrice

/-- `estimateGasPrice`, as a function of the `estimateFeesPerGas` outcome
(`none` embeds a thrown call; otherwise the possibly-absent
`maxFeePerGas` / `maxPriorityFeePerGas` fields), the fee-history reward
matrix and the next base fee computed by `getNextBaseFee`. -/
def estimateGasPrice (fees : Option (Option Int × Option Int))
    (reward : Option (List (List Int))) (nextBaseFee : Int) : GasPriceParameters :=
  let maxFeePerGas0 : Option Int := fees.bind (fun f => f.1)
  let maxPriorityFeePerGas0 : Option Int := fees.bind (fun f => f.2)
  let maxPriorityFeePerGas1 : Int :=
    match maxPriorityFeePerGas0 with
    | none => getFallBackMaxPriorityFeePerGas reward (maxFeePerGas0.getD 0)
    | some p => p
  let maxFeePerGas1 : Int :=
    match maxFeePerGas0 with
    | none => nextBaseFee + maxPriorityFeePerGas1
    | some f => f
  let maxPriorityFeePerGas2 : Int :=
    if maxPriorityFeePerGas1 = 0 then jsDiv maxFeePerGas1 200 else maxPriorityFeePerGas1
  { maxFeePerGas := maxFeePerGas1, maxPriorityFeePerGas := maxPriorityFeePerGas2 }

/-! ### Sliding-window fee queues -/

/-- One entry of a fee queue: a millisecond timestamp and a value.  The
source uses a differently named value field per queue (`maxFeePerGas`,
`maxPriorityFeePerGas`, `baseFeePerGas`, `baseFee`); the update logic is
identical. -/
structure FeeEntry where
  timestamp : Int
  value : Int
  deriving DecidableEq, Repr

instance : Inhabited FeeEntry := ⟨⟨0, 0⟩⟩

/-- The shared queue-update logic of `saveMaxFeePerGas`,
`saveMaxPriorityFeePerGas`, `saveBaseFeePerGas` (slice 1000 ms) and the
Arbitrum `saveL1BaseFee` / `saveL2BaseFee` (slice 15000 ms): append (after
evicting the oldest entry at capacity) when the queue is empty or the
slice window has elapsed since the last entry; otherwise overwrite the
last entry when the new value is strictly lower; otherwise discard. -/
def saveFee (maxQueueSize : Nat) (slice : Int) (queue : List FeeEntry)
    (value timestamp : Int) : List FeeEntry :=
  match queue.getLast? with
  | none =>
      (if maxQueueSize ≤ queue.length then queue.drop 1 else queue) ++
        [{ timestamp := timestamp, value := value }]
  | some last =>
      if slice ≤ timestamp - last.timestamp then
        (if maxQueueSize ≤ queue.length then queue.drop 1 else queue) ++
          [{ timestamp := timestamp, value := value }]
      else if value < last.value then
        queue.dropLast ++ [{ timestamp := timestamp, value := value }]
      else
        queue

/-- `saveMaxFeePerGas` on the main fee queue (slice window 1000 ms). -/
def saveMaxFeePerGas (maxQueueSize : Nat) (queue : List FeeEntry)
    (maxFeePerGas timestamp : Int) : List FeeEntry :=
  saveFee maxQueueSize 1000 queue maxFeePerGas timestamp

/-- Arbitrum `saveL1BaseFee` (`queueValidity` 15000 ms): zero base fees
are ignored entirely. -/
def saveL1BaseFee (maxQueueSize : Nat) (queue : List FeeEntry)
    (baseFee timestamp : Int) : List FeeEntry :=
  if baseFee = 0 then queue else saveFee maxQueueSize 15000 queue baseFee timestamp

/-- `getMinMaxFeePerGas` / `getMinMaxPriorityFeePerGas` on a non-empty
window: fold `minBigInt` over the queue starting from the first entry
(`queue[0]`).  (On an empty window the source first forces a refresh; the
claims under verification assume a non-empty window.) -/
def minOfQueue (queue : List FeeEntry) : Int :=
  queue.foldl (fun acc cur => min cur.value acc) queue.headI.value

/-- Structured form of the `RpcError`s thrown by `validateGasPrice`; each
carries the violated window minimum that the source interpolates into the
error message. -/
inductive GasValidationError where
  | maxFeeTooLow (lowestMaxFeePerGas : Int)
  | maxPriorityFeeTooLow (lowestMaxPriorityFeePerGas : Int)
  deriving DecidableEq, Repr

/-- `validateGasPrice(gasPrice)` over a non-empty fee window: compare the
proposed pair against the window minima, dividing both minima by `10^9`
first when `chainType` is `"hedera"`. -/
def validateGasPrice (hedera : Bool) (queueMaxFeePerGas queueMaxPriorityFeePerGas : List FeeEntry)
    (gasPrice : GasPriceParameters) : Except GasValidationError Unit :=
  let lowestMaxFeePerGas0 := minOfQueue queueMaxFeePerGas
  let lowestMaxPriorityFeePerGas0 := minOfQueue queueMaxPriorityFeePerGas
  let lowestMaxFeePerGas :=
    if hedera then jsDiv lowestMaxFeePerGas0 (10 ^ 9) else lowestMaxFeePerGas0
  let lowestMaxPriorityFeePerGas :=
    if hedera then jsDiv lowestMaxPriorityFeePerGas0 (10 ^ 9) else lowestMaxPriorityFeePerGas0
  if gasPrice.maxFeePerGas < lowestMaxFeePerGas then
    Except.error (GasValidationError.maxFeeTooLow lowestMaxFeePerGas)
  else if gasPrice.maxPriorityFeePerGas < lowestMaxPriorityFeePerGas then
    Except.error (GasValidationError.maxPriorityFeeTooLow lowestMaxPriorityFeePerGas)
  else
    Except.ok ()

/-! ## Local sender manager

The local backend keeps an `availableWallets` array guarded by a counting
semaphore.  The claims under verification concern the order in which
sequential `getWallet` / `pushWallet` calls hand out wallets, which is
decided entirely by the array discipline: `getWallet` removes the head
(`shift`), `pushWallet` appends at the tail (`push`) unless the wallet is
already present.  Accounts are identified by their address. -/

abbrev Account := String

/-- `availableWallets.shift()` inside `getWallet`: the resolved wallet and
the remaining pool. -/
def getWalletFromPool (pool : List Account) : Option Account × List Account :=
  (pool.head?, pool.tail)

/-- `pushWallet`: append unless already present. -/
def pushWallet (pool : List Account) (wallet : Account) : List Account :=
  if wallet ∈ pool then pool else pool ++ [wallet]

/-! ## Derived definitions used to state the claims -/

/-- The bump rule in the order the spec states it (multiply both fees by
`gasPriceBump / 100` first, then apply the chain floor to the priority fee
and raise the max fee to the priority fee).  Defined from the spec's words,
for comparison with `bumpTheGasPrice`. -/
def bumpSpecOrder (config : GasConfig) (gasPrice : GasPriceParameters) :
    GasPriceParameters :=
  let bumpedMaxFee := jsDiv (gasPrice.maxFeePerGas * config.gasPriceBump) 100
  let bumpedPriority := jsDiv (gasPrice.maxPriorityFeePerGas * config.gasPriceBump) 100
  let maxPriorityFeePerGas := max bumpedPriority (getDefaultGasFee config)
  let maxFeePerGas := max bumpedMaxFee maxPriorityFeePerGas
  { maxFeePerGas := maxFeePerGas, maxPriorityFeePerGas := maxPriorityFeePerGas }

/-- One mempool API call (the `clear` operation is deliberately excluded,
matching the sequences quantified over by the invariant claim). -/
inductive MempoolOp where
  | addOutstanding (op : UserOperationInfo)
  | addProcessing (op : UserOperationInfo)
  | addSubmitted (op : SubmittedUserOperation)
  | removeOutstanding (h : HexData32)
  | removeProcessing (h : HexData32)
  | removeSubmitted (h : HexData32)
  | updateAvailable (mc : MulticallOutcome)

def applyOp (s : MemoryStore) : MempoolOp → MemoryStore
  | MempoolOp.addOutstanding op => addOutstanding op s
  | MempoolOp.addProcessing op => addProcessing op s
  | MempoolOp.addSubmitted op => addSubmitted op s
  | MempoolOp.removeOutstanding h => removeOutstanding h s
  | MempoolOp.removeProcessing h => removeProcessing h s
  | MempoolOp.removeSubmitted h => removeSubmitted h s
  | MempoolOp.updateAvailable mc => (updateAvailableUserOperations s mc).1

/-- Run a finite sequence of mempool calls from the empty mempool. -/
def execOps (ops : List MempoolOp) : MemoryStore :=
  ops.foldl applyOp emptyStore

/-- Number of operations with a given hash in a list. -/
def hashCount (h : HexData32) (l : List UserOperationInfo) : Nat :=
  (hashes l).count h

/-- Queue timestamps are non-decreasing. -/
def sortedByTimestamp (q : List FeeEntry) : Prop :=
  q.Pairwise (fun a b => a.timestamp ≤ b.timestamp)

/-- Run a sequence of `(value, timestamp)` saves through `saveFee` from an
empty queue. -/
def runSaves (maxQueueSize : Nat) (slice : Int) (saves : List (Int × Int)) :
    List FeeEntry :=
  saves.foldl (fun q vt => saveFee maxQueueSize slice q vt.1 vt.2) []

/-- Run a sequence of `(baseFee, timestamp)` saves through the Arbitrum
`saveL1BaseFee` from an empty queue. -/
def runSavesL1 (maxQueueSize : Nat) (saves : List (Int × Int)) : List FeeEntry :=
  saves.foldl (fun q vt => saveL1BaseFee maxQueueSize q vt.1 vt.2) []

/-! ## Theorems -/

/-- C4: if the batched multicall inside `updateAvailableUserOperations`
throws as a whole, reconciliation aborts with that error and all four
mempool lists — available-outstanding, outstanding, processing, submitted —
are exactly what they were before the call. -/
theorem updateAvailableMulticallThrowLeavesStoreUnchanged (s : MemoryStore) :
    (updateAvailableUserOperations s MulticallOutcome.throw).2 = true ∧
      (updateAvailableUserOperations s MulticallOutcome.throw).1.availableOutstanding =
        s.availableOutstanding ∧
      (updateAvailableUserOperations s MulticallOutcome.throw).1.outstanding = s.outstanding ∧
      (updateAvailableUserOperations s MulticallOutcome.throw).1.processing = s.processing ∧
      (updateAvailableUserOperations s MulticallOutcome.throw).1.submitted = s.submitted :=
  ⟨rfl, rfl, rfl, rfl, rfl⟩

/-- C5 counterexample: on Polygon (chain 137) with `gasPriceBump = 120`,
input `maxFeePerGas = 50` gwei and `maxPriorityFeePerGas = 10` gwei,
`bumpTheGasPrice` returns a priority fee of 37.2 gwei (floor applied
before the bump: `max(10, 31) · 120 / 100`), while the claim's order
(bump first, then floor) would give `max(10 · 120 / 100, 31) = 31` gwei. -/
theorem bumpTheGasPriceOrder_counterexample :
    bumpTheGasPrice ⟨137, 120⟩ ⟨50000000000, 10000000000⟩ =
        ⟨60000000000, 37200000000⟩ ∧
      bumpSpecOrder ⟨137, 120⟩ ⟨50000000000, 10000000000⟩ =
        ⟨60000000000, 31000000000⟩ ∧
      (⟨60000000000, 37200000000⟩ : GasPriceParameters) ≠ ⟨60000000000, 31000000000⟩ := by
  decide

/-- C5 amended: `bumpTheGasPrice` first applies the floors — the priority
fee is raised to the chain floor (31 gwei on Polygon, 1 gwei on Mumbai,
0 elsewhere) and the max fee is raised to the resulting priority fee — and
then multiplies both by `gasPriceBump / 100` (on chains without a Celo /
DFK / Avalanche override); in particular on Polygon with
`gasPriceBump = 120` and gas-station values 50 / 40 gwei the result is
60 / 48 gwei. -/
theorem bumpTheGasPriceFloorsThenBumps (config : GasConfig) (gasPrice : GasPriceParameters)
    (hc : config.chainId ≠ celoChainId ∧ config.chainId ≠ celoAlfajoresChainId ∧
      config.chainId ≠ dfkChainId ∧ config.chainId ≠ avalancheChainId) :
    bumpTheGasPrice config gasPrice =
        { maxFeePerGas :=
            jsDiv
              (max gasPrice.maxFeePerGas
                  (max gasPrice.maxPriorityFeePerGas
                    (if config.chainId = 137 then parseGwei 31
                      else if config.chainId = 80001 then parseGwei 1 else 0)) *
                config.gasPriceBump)
              100,
          maxPriorityFeePerGas :=
            jsDiv
              (max gasPrice.maxPriorityFeePerGas
                  (if config.chainId = 137 then parseGwei 31
                    else if config.chainId = 80001 then parseGwei 1 else 0) *
                config.gasPriceBump)
              100 } ∧
      bumpTheGasPrice ⟨polygonChainId, 120⟩ ⟨parseGwei 50, parseGwei 40⟩ =
        ⟨parseGwei 60, parseGwei 48⟩ := by
  obtain ⟨h1, h2, h3, h4⟩ := hc
  simp only [celoChainId] at h1
  simp only [celoAlfajoresChainId] at h2
  simp only [dfkChainId] at h3
  simp only [avalancheChainId] at h4
  constructor
  · simp [bumpTheGasPrice, getDefaultGasFee, MIN_POLYGON_GAS_PRICE, MIN_MUMBAI_GAS_PRICE,
      polygonChainId, mumbaiChainId, celoChainId, celoAlfajoresChainId, dfkChainId,
      avalancheChainId, h1, h2, h3, h4]
  · decide

/-- C5 amended, witness: the Polygon chain id 137 satisfies the
no-override hypothesis and the general formula evaluates as stated at the
S3 input. -/
theorem bumpTheGasPriceFloorsThenBumps_witness :
    bumpTheGasPrice ⟨137, 120⟩ ⟨50000000000, 10000000000⟩ =
      { maxFeePerGas := jsDiv (max 50000000000 (max 10000000000
          (if (137 : Nat) = 137 then parseGwei 31 else if (137 : Nat) = 80001 then parseGwei 1 else 0)) * 120) 100,
        maxPriorityFeePerGas := jsDiv (max 10000000000
          (if (137 : Nat) = 137 then parseGwei 31 else if (137 : Nat) = 80001 then parseGwei 1 else 0) * 120) 100 } :=
  (bumpTheGasPriceFloorsThenBumps ⟨137, 120⟩ ⟨50000000000, 10000000000⟩
    (by decide)).1

/-- C6: evaluation of `getNextBaseFee` at the failing input
`b = 800, u = 100, L = 400` (so `T = 200`, an underfull block): the code
returns `850`, strictly greater than `b`, whereas the claim's formula
`b − b·(T − u)/T/8` gives `750`.  The `u < T` branch reuses
`gasUsedDelta = u − T` (negative), so with truncating `bigint` division
`b − delta` adds the magnitude instead of subtracting it. -/
theorem getNextBaseFeeUnderfullIncreases :
    getNextBaseFee 800 100 400 = 850 ∧
      ¬ getNextBaseFee 800 100 400 ≤ 800 ∧
      800 - jsDiv (jsDiv (800 * (200 - 100)) 200) 8 = 750 := by
  decide

/-- C9 counterexample: with the pool drained, after `pushWallet w1` then
`pushWallet w2` the next `getWallet` resolves to `w1`, the first pushed
wallet — not `w2` as the LIFO claim states. -/
theorem localSenderManagerNotLifo_counterexample :
    (getWalletFromPool (pushWallet (pushWallet [] "w1") "w2")).1 = some "w1" ∧
      some ("w1" : Account) ≠ some "w2" := by
  decide

/-- C9 amended: the local backend hands out wallets in FIFO (queue) order:
after the pool has been drained, if `w1` and then `w2` are returned via
`pushWallet`, the next `getWallet` resolves to `w1`, the least recently
pushed wallet. -/
theorem localSenderManagerFifo (w1 w2 : Account) :
    (getWalletFromPool (pushWallet (pushWallet [] w1) w2)).1 = some w1 := by
  rcases eq_or_ne w2 w1 with h | h <;> simp [pushWallet, getWalletFromPool, h]

/-- The running reward sum of `getFallBackMaxPriorityFeePerGas` stays
non-negative when every 20th-percentile reward is non-negative. -/
theorem rewardFoldNonneg (rows : List (List Int)) :
    ∀ acc : Int, (∀ row ∈ rows, 0 ≤ row.headI) → 0 ≤ acc →
      0 ≤ rows.foldl (fun acc cur => cur.headI + acc) acc := by
  induction rows with
  | nil => intro acc _ hacc; simpa using hacc
  | cons r rs ih =>
      intro acc hrows hacc
      simp only [List.foldl_cons]
      exact ih _ (fun row hr => hrows row (List.mem_cons_of_mem _ hr))
        (add_nonneg (hrows r (List.mem_cons_self _ _)) hacc)

/-- C10: when the EIP-1559 estimator yields neither fee (e.g.
`estimateFeesPerGas` throws) and every fee-history reward is non-negative,
`estimateGasPrice` returns `maxFeePerGas` equal to the next base fee and
`maxPriorityFeePerGas` equal to `maxFeePerGas / 200`, because the
fee-history fallback is capped at the missing `maxFeePerGas` taken as 0. -/
theorem estimateGasPriceDoubleFallback (fees : Option (Option Int × Option Int))
    (reward : Option (List (List Int))) (nextBaseFee : Int)
    (hf : fees.bind (fun f => f.1) = none) (hp : fees.bind (fun f => f.2) = none)
    (hr : ∀ rows, reward = some rows → ∀ row ∈ rows, 0 ≤ row.headI) :
    estimateGasPrice fees reward nextBaseFee =
      { maxFeePerGas := nextBaseFee, maxPriorityFeePerGas := jsDiv nextBaseFee 200 } := by
  have hfb : getFallBackMaxPriorityFeePerGas reward 0 = 0 := by
    cases reward with
    | none => rfl
    | some rows =>
        have hsum : 0 ≤ rows.foldl (fun acc cur => cur.headI + acc) 0 :=
          rewardFoldNonneg rows 0 (hr rows rfl) le_rfl
        have hdiv : 0 ≤ jsDiv (rows.foldl (fun acc cur => cur.headI + acc) 0) 10 :=
          Int.tdiv_nonneg hsum (by norm_num)
        simpa [getFallBackMaxPriorityFeePerGas] using min_eq_right hdiv
  unfold estimateGasPrice
  rw [hf, hp]
  simp [hfb]

/-- C10 witness: with a thrown estimator, rewards `[[5], [15]]` and next
base fee `1000`, the result is `maxFeePerGas = 1000`,
`maxPriorityFeePerGas = 1000 / 200 = 5`. -/
theorem estimateGasPriceDoubleFallback_witness :
    estimateGasPrice none (some [[5], [15]]) 1000 =
      { maxFeePerGas := 1000, maxPriorityFeePerGas := jsDiv 1000 200 } :=
  estimateGasPriceDoubleFallback none (some [[5], [15]]) 1000 rfl rfl
    (by rintro rows h; cases h; decide)

/-- Case analysis of the two comparisons in `validateGasPrice`, for
arbitrary (already scaled) window minima `A` and `B`. -/
theorem validateGasPriceCore (A B : Int) (q : GasPriceParameters) :
    ((if q.maxFeePerGas < A then
          Except.error (GasValidationError.maxFeeTooLow A)
        else if q.maxPriorityFeePerGas < B then
          Except.error (GasValidationError.maxPriorityFeeTooLow B)
        else Except.ok ()) = Except.ok () ↔
        A ≤ q.maxFeePerGas ∧ B ≤ q.maxPriorityFeePerGas) ∧
      (q.maxFeePerGas < A →
        (if q.maxFeePerGas < A then
            Except.error (GasValidationError.maxFeeTooLow A)
          else if q.maxPriorityFeePerGas < B then
            Except.error (GasValidationError.maxPriorityFeeTooLow B)
          else Except.ok ()) = Except.error (GasValidationError.maxFeeTooLow A)) ∧
      (A ≤ q.maxFeePerGas → q.maxPriorityFeePerGas < B →
        (if q.maxFeePerGas < A then
            Except.error (GasValidationError.maxFeeTooLow A)
          else if q.maxPriorityFeePerGas < B then
            Except.error (GasValidationError.maxPriorityFeeTooLow B)
          else Except.ok ()) = Except.error (GasValidationError.maxPriorityFeeTooLow B)) := by
  refine ⟨?_, ?_, ?_⟩
  · split_ifs with h1 h2
    · exact iff_of_false (by simp) (fun hab => absurd hab.1 (not_le.mpr h1))
    · exact iff_of_false (by simp) (fun hab => absurd hab.2 (not_le.mpr h2))
    · exact iff_of_true rfl ⟨not_lt.mp h1, not_lt.mp h2⟩
  · intro h1; rw [if_pos h1]
  · intro h1 h2; rw [if_neg (not_lt.mpr h1), if_pos h2]

/-- C7: over a non-empty fee window, `validateGasPrice` succeeds exactly
when the proposed `maxFeePerGas` and `maxPriorityFeePerGas` are at least
the respective window minima — both minima divided by `10^9` first when
`chainType` is `"hedera"` — and otherwise throws the error carrying the
violated minimum. -/
theorem validateGasPriceIffAtLeastWindowMinima (hedera : Bool)
    (queueMaxFeePerGas queueMaxPriorityFeePerGas : List FeeEntry) (q : GasPriceParameters)
    (hqf : queueMaxFeePerGas ≠ []) (hqp : queueMaxPriorityFeePerGas ≠ []) :
    (validateGasPrice hedera queueMaxFeePerGas queueMaxPriorityFeePerGas q = Except.ok () ↔
        (if hedera then jsDiv (minOfQueue queueMaxFeePerGas) (10 ^ 9)
            else minOfQueue queueMaxFeePerGas) ≤ q.maxFeePerGas ∧
          (if hedera then jsDiv (minOfQueue queueMaxPriorityFeePerGas) (10 ^ 9)
              else minOfQueue queueMaxPriorityFeePerGas) ≤ q.maxPriorityFeePerGas) ∧
      (q.maxFeePerGas <
          (if hedera then jsDiv (minOfQueue queueMaxFeePerGas) (10 ^ 9)
            else minOfQueue queueMaxFeePerGas) →
        validateGasPrice hedera queueMaxFeePerGas queueMaxPriorityFeePerGas q =
          Except.error (GasValidationError.maxFeeTooLow
            (if hedera then jsDiv (minOfQueue queueMaxFeePerGas) (10 ^ 9)
              else minOfQueue queueMaxFeePerGas))) ∧
      ((if hedera then jsDiv (minOfQueue queueMaxFeePerGas) (10 ^ 9)
            else minOfQueue queueMaxFeePerGas) ≤ q.maxFeePerGas →
        q.maxPriorityFeePerGas <
          (if hedera then jsDiv (minOfQueue queueMaxPriorityFeePerGas) (10 ^ 9)
            else minOfQueue queueMaxPriorityFeePerGas) →
        validateGasPrice hedera queueMaxFeePerGas queueMaxPriorityFeePerGas q =
          Except.error (GasValidationError.maxPriorityFeeTooLow
            (if hedera then jsDiv (minOfQueue queueMaxPriorityFeePerGas) (10 ^ 9)
              else minOfQueue queueMaxPriorityFeePerGas))) := by
  exact validateGasPriceCore _ _ q

/-- C7 witness: with a non-Hedera window holding minima 10 and 3, the
proposed pair (10, 5) validates successfully. -/
theorem validateGasPriceIffAtLeastWindowMinima_witness :
    validateGasPrice false [⟨0, 10⟩] [⟨0, 3⟩] ⟨10, 5⟩ = Except.ok () :=
  ((validateGasPriceIffAtLeastWindowMinima false [⟨0, 10⟩] [⟨0, 3⟩] ⟨10, 5⟩
      (by decide) (by decide)).1).mpr (by decide)

/-- Membership in `jsSetDedupAux`: the elements of the input not already
seen. -/
theorem mem_jsSetDedupAux {α : Type} [DecidableEq α] (l : List α) :
    ∀ (seen : List α) (a : α), a ∈ jsSetDedupAux seen l ↔ a ∈ l ∧ a ∉ seen := by
  induction l with
  | nil => intro seen a; simp [jsSetDedupAux]
  | cons b l ih =>
      intro seen a
      by_cases hb : b ∈ seen
      · simp only [jsSetDedupAux, if_pos hb, ih, List.mem_cons]
        constructor
        · rintro ⟨h1, h2⟩; exact ⟨Or.inr h1, h2⟩
        · rintro ⟨h1 | h1, h2⟩
          · exact absurd (h1 ▸ hb) h2
          · exact ⟨h1, h2⟩
      · simp only [jsSetDedupAux, if_neg hb, List.mem_cons, ih, List.mem_append,
          List.mem_singleton]
        constructor
        · rintro (rfl | ⟨h1, h2⟩)
          · exact ⟨Or.inl rfl, hb⟩
          · exact ⟨Or.inr h1, fun hs => h2 (Or.inl hs)⟩
        · rintro ⟨rfl | h1, h2⟩
          · exact Or.inl rfl
          · rcases eq_or_ne a b with rfl | hab
            · exact Or.inl rfl
            · refine Or.inr ⟨h1, fun hs => ?_⟩
              rcases hs with hs | hs
              · exact h2 hs
              · exact hab (by simpa using hs)

/-- `jsSetDedup` keeps exactly the elements of its input. -/
theorem mem_jsSetDedup {α : Type} [DecidableEq α] (l : List α) (a : α) :
    a ∈ jsSetDedup l ↔ a ∈ l := by
  simp [jsSetDedup, mem_jsSetDedupAux]

/-- `jsSetDedupAux` never repeats an element. -/
theorem nodup_jsSetDedupAux {α : Type} [DecidableEq α] (l : List α) :
    ∀ seen : List α, (jsSetDedupAux seen l).Nodup := by
  induction l with
  | nil => intro seen; simp [jsSetDedupAux]
  | cons b l ih =>
      intro seen
      by_cases hb : b ∈ seen
      · simpa [jsSetDedupAux, if_pos hb] using ih seen
      · simp only [jsSetDedupAux, if_neg hb, List.nodup_cons]
        refine ⟨fun hmem => ?_, ih _⟩
        have := (mem_jsSetDedupAux l _ b).mp hmem
        exact this.2 (List.mem_append.mpr (Or.inr (List.mem_singleton.mpr rfl)))

/-- `jsSetDedup` produces a duplicate-free list. -/
theorem nodup_jsSetDedup {α : Type} [DecidableEq α] (l : List α) :
    (jsSetDedup l).Nodup :=
  nodup_jsSetDedupAux l []

/-- Membership in the promotion result: an outstanding operation whose
`(sender, nonceKey)` pair is queried and whose own oracle answer matches
its nonce value. -/
theorem mem_promoteAll (oracle : Address → Nat → CallResult)
    (outs : List UserOperationInfo) (pairs : List (Address × Nat))
    (op : UserOperationInfo) :
    op ∈ promoteAll oracle outs pairs ↔
      op ∈ outs ∧ getSenderNonceKeyPair op.userOperation ∈ pairs ∧
        oracle op.userOperation.sender (getNonceKeyAndValue op.userOperation).1 =
          CallResult.success (getNonceKeyAndValue op.userOperation).2 := by
  induction pairs with
  | nil => simp [promoteAll]
  | cons p ps ih =>
      cases hres : oracle p.1 p.2 with
      | success nv =>
          simp only [promoteAll, hres, List.mem_append, List.mem_filter, ih, List.mem_cons,
            decide_eq_true_eq]
          constructor
          · rintro (⟨hmem, hs, hk, hv⟩ | ⟨h1, h2, h3⟩)
            · refine ⟨hmem, Or.inl ?_, ?_⟩
              · exact Prod.ext hs hk
              · rw [hs, hk, hres, hv]
            · exact ⟨h1, Or.inr h2, h3⟩
          · rintro ⟨h1, hp | h2, h3⟩
            · left
              have hs : op.userOperation.sender = p.1 := congrArg Prod.fst hp
              have hk : (getNonceKeyAndValue op.userOperation).1 = p.2 :=
                congrArg Prod.snd hp
              refine ⟨h1, hs, hk, ?_⟩
              have := h3
              rw [hs, hk, hres] at this
              injection this with hnv
              exact hnv.symm
            · exact Or.inr ⟨h1, h2, h3⟩
      | failure =>
          simp only [promoteAll, hres, List.nil_append, ih, List.mem_cons]
          constructor
          · rintro ⟨h1, h2, h3⟩; exact ⟨h1, Or.inr h2, h3⟩
          · rintro ⟨h1, hp | h2, h3⟩
            · exfalso
              have hs : op.userOperation.sender = p.1 := congrArg Prod.fst hp
              have hk : (getNonceKeyAndValue op.userOperation).1 = p.2 :=
                congrArg Prod.snd hp
              rw [hs, hk, hres] at h3
              exact CallResult.noConfusion h3
            · exact ⟨h1, h2, h3⟩

/-- C1: after `updateAvailableUserOperations` with per-entry multicall
results, available-outstanding contains exactly the operations of the
outstanding snapshot whose `(sender, nonceKey)` oracle call succeeded with
exactly their nonce value; operations of failed pairs are absent and the
outstanding list itself is untouched. -/
theorem updateAvailableExactPromotion (s : MemoryStore)
    (oracle : Address → Nat → CallResult) (op : UserOperationInfo) :
    (op ∈ (updateAvailableUserOperations s
          (MulticallOutcome.results oracle)).1.availableOutstanding ↔
        op ∈ s.outstanding ∧
          oracle op.userOperation.sender (getNonceKeyAndValue op.userOperation).1 =
            CallResult.success (getNonceKeyAndValue op.userOperation).2) ∧
      (updateAvailableUserOperations s
          (MulticallOutcome.results oracle)).1.outstanding = s.outstanding := by
  refine ⟨?_, rfl⟩
  show op ∈ promoteAll oracle s.outstanding
      (jsSetDedup (s.outstanding.map (fun o => getSenderNonceKeyPair o.userOperation))) ↔ _
  rw [mem_promoteAll]
  constructor
  · rintro ⟨h1, _, h3⟩; exact ⟨h1, h3⟩
  · rintro ⟨h1, h3⟩
    exact ⟨h1, (mem_jsSetDedup _ _).mpr (List.mem_map_of_mem _ h1), h3⟩

/-- C3 counterexample: with outstanding snapshot
`[(A, value 7, h1), (B, value 3, h2), (A, value 7, h3)]` and an oracle
answering 7 for sender A and 3 for sender B, all three operations are
promoted, but the promotion loop iterates pair by pair, so `h3` (sender A)
is published before `h2` (sender B) although `h2` was admitted to
outstanding first: the claimed preservation of admission order between
promoted operations of different pairs fails. -/
theorem updateAvailableOrder_counterexample :
    let snapshot : List UserOperationInfo :=
      [⟨⟨"A", 7⟩, "h1"⟩, ⟨⟨"B", 3⟩, "h2"⟩, ⟨⟨"A", 7⟩, "h3"⟩]
    let available :=
      (updateAvailableUserOperations ⟨snapshot, [], [], []⟩
          (MulticallOutcome.results
            (fun s _ => if s = "A" then CallResult.success 7 else CallResult.success 3))).1.availableOutstanding
    (⟨⟨"B", 3⟩, "h2"⟩ : UserOperationInfo) ∈ available ∧
      (⟨⟨"A", 7⟩, "h3"⟩ : UserOperationInfo) ∈ available ∧
      snapshot.indexOf ⟨⟨"B", 3⟩, "h2"⟩ < snapshot.indexOf ⟨⟨"A", 7⟩, "h3"⟩ ∧
      available.indexOf ⟨⟨"A", 7⟩, "h3"⟩ < available.indexOf ⟨⟨"B", 3⟩, "h2"⟩ := by
  decide

/-- Filtering the promotion result down to one `(sender, nonceKey)` pair
yields exactly that pair's segment, provided the pair list is
duplicate-free. -/
theorem filter_promoteAll_pair (oracle : Address → Nat → CallResult)
    (outs : List UserOperationInfo) (p : Address × Nat) :
    ∀ pairs : List (Address × Nat), pairs.Nodup →
      (promoteAll oracle outs pairs).filter
          (fun op => getSenderNonceKeyPair op.userOperation = p) =
        (if p ∈ pairs then
          match oracle p.1 p.2 with
          | CallResult.success nv =>
              outs.filter (fun op =>
                op.userOperation.sender = p.1 ∧
                (getNonceKeyAndValue op.userOperation).1 = p.2 ∧
                (getNonceKeyAndValue op.userOperation).2 = nv)
          | CallResult.failure => []
        else []) := by
  intro pairs
  induction pairs with
  | nil => intro _; simp [promoteAll]
  | cons q ps ih =>
      intro hnd
      rw [List.nodup_cons] at hnd
      obtain ⟨hq, hps⟩ := hnd
      simp only [promoteAll, List.filter_append, ih hps]
      rcases eq_or_ne p q with rfl | hpq
      · rw [if_neg hq, if_pos (List.mem_cons_self _ _), List.append_nil]
        cases hres : oracle p.1 p.2 with
        | success nv =>
            simp only
            rw [List.filter_eq_self.mpr]
            intro op hop
            rw [List.mem_filter] at hop
            have hcond := of_decide_eq_true hop.2
            exact decide_eq_true (Prod.ext hcond.1 hcond.2.1)
        | failure => simp
      · have hfilq :
            ((match oracle q.1 q.2 with
              | CallResult.success nv =>
                  outs.filter (fun (op : UserOperationInfo) =>
                    op.userOperation.sender = q.1 ∧
                    (getNonceKeyAndValue op.userOperation).1 = q.2 ∧
                    (getNonceKeyAndValue op.userOperation).2 = nv)
              | CallResult.failure => ([] : List UserOperationInfo)).filter
                (fun (op : UserOperationInfo) => getSenderNonceKeyPair op.userOperation = p)) = [] := by
          cases hres : oracle q.1 q.2 with
          | success nv =>
              simp only
              rw [List.filter_eq_nil]
              intro op hop
              rw [List.mem_filter] at hop
              have hcond := of_decide_eq_true hop.2
              simp only [decide_eq_true_eq]
              intro hpk
              have hq2 : getSenderNonceKeyPair op.userOperation = q :=
                Prod.ext hcond.1 hcond.2.1
              exact hpq (hpk.symm.trans hq2)
          | failure => simp
        rw [hfilq, List.nil_append]
        by_cases hp : p ∈ ps
        · rw [if_pos hp, if_pos (List.mem_cons_of_mem _ hp)]
        · rw [if_neg hp, if_neg (fun h => (List.mem_cons.mp h).elim hpq hp)]

/-- C3 amended: reconciliation preserves admission order within each
`(sender, nonceKey)` pair — restricted to any single pair, the new
available-outstanding list is exactly the promoted operations of that pair
in outstanding-snapshot order (across different pairs the output is
grouped by the first occurrence of each pair instead). -/
theorem updateAvailablePreservesOrderWithinPair (s : MemoryStore)
    (oracle : Address → Nat → CallResult) (p : Address × Nat) :
    ((updateAvailableUserOperations s
          (MulticallOutcome.results oracle)).1.availableOutstanding).filter
        (fun op => getSenderNonceKeyPair op.userOperation = p) =
      s.outstanding.filter (fun op =>
        getSenderNonceKeyPair op.userOperation = p ∧
          oracle op.userOperation.sender (getNonceKeyAndValue op.userOperation).1 =
            CallResult.success (getNonceKeyAndValue op.userOperation).2) := by
  have hav :
      (updateAvailableUserOperations s (MulticallOutcome.results oracle)).1.availableOutstanding =
        promoteAll oracle s.outstanding
          (jsSetDedup (s.outstanding.map (fun o => getSenderNonceKeyPair o.userOperation))) := rfl
  rw [hav, filter_promoteAll_pair oracle s.outstanding p _ (nodup_jsSetDedup _)]
  by_cases hp : p ∈ jsSetDedup (s.outstanding.map (fun o => getSenderNonceKeyPair o.userOperation))
  · rw [if_pos hp]
    cases hres : oracle p.1 p.2 with
    | success nv =>
        simp only
        apply List.filter_congr
        intro op _
        apply decide_eq_decide.mpr
        constructor
        · rintro ⟨hs, hk, hv⟩
          refine ⟨Prod.ext hs hk, ?_⟩
          rw [hs, hk, hres, hv]
        · rintro ⟨hpk, hor⟩
          have hs : op.userOperation.sender = p.1 := congrArg Prod.fst hpk
          have hk : (getNonceKeyAndValue op.userOperation).1 = p.2 := congrArg Prod.snd hpk
          refine ⟨hs, hk, ?_⟩
          rw [hs, hk, hres] at hor
          injection hor with hnv
          exact hnv.symm
    | failure =>
        simp only
        symm
        rw [List.filter_eq_nil]
        intro op _
        simp only [decide_eq_true_eq]
        rintro ⟨hpk, hor⟩
        have hs : op.userOperation.sender = p.1 := congrArg Prod.fst hpk
        have hk : (getNonceKeyAndValue op.userOperation).1 = p.2 := congrArg Prod.snd hpk
        rw [hs, hk, hres] at hor
        exact CallResult.noConfusion hor
  · rw [if_neg hp]
    symm
    rw [List.filter_eq_nil]
    intro op hop
    simp only [decide_eq_true_eq]
    rintro ⟨hpk, -⟩
    exact hp ((mem_jsSetDedup _ _).mpr (hpk ▸ List.mem_map_of_mem _ hop))

/-! ### Counting lemmas for the mempool invariant -/

theorem hashCount_nil (h : HexData32) : hashCount h [] = 0 := rfl

theorem hashCount_cons (h : HexData32) (op : UserOperationInfo)
    (l : List UserOperationInfo) :
    hashCount h (op :: l) = hashCount h l + (if op.userOperationHash = h then 1 else 0) := by
  simp [hashCount, hashes, List.count_cons]

theorem hashCount_append (h : HexData32) (l₁ l₂ : List UserOperationInfo) :
    hashCount h (l₁ ++ l₂) = hashCount h l₁ + hashCount h l₂ := by
  simp [hashCount, hashes, List.count_append]

theorem mem_hashes_iff_pos (h : HexData32) (l : List UserOperationInfo) :
    h ∈ hashes l ↔ 0 < hashCount h l := by
  simp [hashCount, List.count_pos_iff]

theorem mem_hashes_cons (h : HexData32) (op : UserOperationInfo)
    (l : List UserOperationInfo) :
    h ∈ hashes (op :: l) ↔ op.userOperationHash = h ∨ h ∈ hashes l := by
  simp [hashes, eq_comm]

/-- Removing the first operation with hash `h` decrements the `h`-count. -/
theorem hashCount_removeFirstByHash_self (h : HexData32) (l : List UserOperationInfo)
    (hm : h ∈ hashes l) :
    hashCount h (removeFirstByHash h l) + 1 = hashCount h l := by
  induction l with
  | nil => simp [hashes] at hm
  | cons op rest ih =>
      by_cases hop : op.userOperationHash = h
      · simp [removeFirstByHash, hop, hashCount_cons]
      · have hm' : h ∈ hashes rest := by
          rcases (mem_hashes_cons h op rest).mp hm with h1 | h1
          · exact absurd h1 hop
          · exact h1
        have hih := ih hm'
        rw [removeFirstByHash, if_neg hop, hashCount_cons, hashCount_cons, if_neg hop]
        omega

/-- Removing the first operation with a different hash leaves the
`h`-count unchanged. -/
theorem hashCount_removeFirstByHash_ne (h h' : HexData32) (hne : h ≠ h')
    (l : List UserOperationInfo) :
    hashCount h (removeFirstByHash h' l) = hashCount h l := by
  induction l with
  | nil => rfl
  | cons op rest ih =>
      by_cases hop : op.userOperationHash = h'
      · rw [removeFirstByHash, if_pos hop, hashCount_cons,
          if_neg (fun he => hne (he.symm.trans hop))]
        omega
      · rw [removeFirstByHash, if_neg hop, hashCount_cons, hashCount_cons, ih]

/-- Each operation lands in at most one pair's segment: the promotion
result counts every operation at most as often as the snapshot does, for a
duplicate-free pair list. -/
theorem promoteAll_count_le (oracle : Address → Nat → CallResult)
    (outs : List UserOperationInfo) (x : UserOperationInfo) :
    ∀ pairs : List (Address × Nat), pairs.Nodup →
      (promoteAll oracle outs pairs).count x ≤ outs.count x := by
  intro pairs
  induction pairs with
  | nil => intro _; simp [promoteAll]
  | cons q ps ih =>
      intro hnd
      rw [List.nodup_cons] at hnd
      obtain ⟨hq, hps⟩ := hnd
      show ((match oracle q.1 q.2 with
          | CallResult.success nv =>
              outs.filter (fun (op : UserOperationInfo) =>
                op.userOperation.sender = q.1 ∧
                (getNonceKeyAndValue op.userOperation).1 = q.2 ∧
                (getNonceKeyAndValue op.userOperation).2 = nv)
          | CallResult.failure => []) ++ promoteAll oracle outs ps).count x ≤ outs.count x
      rw [List.count_append]
      rcases eq_or_ne (getSenderNonceKeyPair x.userOperation) q with hx | hx
      · have hrest : x ∉ promoteAll oracle outs ps := by
          rw [mem_promoteAll]
          rintro ⟨-, hmem, -⟩
          exact hq (hx ▸ hmem)
        rw [List.count_eq_zero.mpr hrest]
        have hseg : (match oracle q.1 q.2 with
            | CallResult.success nv =>
                outs.filter (fun (op : UserOperationInfo) =>
                  op.userOperation.sender = q.1 ∧
                  (getNonceKeyAndValue op.userOperation).1 = q.2 ∧
                  (getNonceKeyAndValue op.userOperation).2 = nv)
            | CallResult.failure => []).count x ≤ outs.count x := by
          cases oracle q.1 q.2 with
          | success nv => exact List.Sublist.count_le (List.filter_sublist _) x
          | failure => simp
        omega
      · have hseg : x ∉ (match oracle q.1 q.2 with
            | CallResult.success nv =>
                outs.filter (fun (op : UserOperationInfo) =>
                  op.userOperation.sender = q.1 ∧
                  (getNonceKeyAndValue op.userOperation).1 = q.2 ∧
                  (getNonceKeyAndValue op.userOperation).2 = nv)
            | CallResult.failure => []) := by
          cases hres : oracle q.1 q.2 with
          | success nv =>
              intro hmem
              rw [List.mem_filter] at hmem
              have hcond := of_decide_eq_true hmem.2
              exact hx (Prod.ext hcond.1 hcond.2.1)
          | failure => exact List.not_mem_nil x
        rw [List.count_eq_zero.mpr hseg, Nat.zero_add]
        exact ih hps

/-- Transfer per-element count domination to per-hash count domination. -/
theorem hashCount_le_of_count_le (l₁ l₂ : List UserOperationInfo)
    (hc : ∀ x, l₁.count x ≤ l₂.count x) (h : HexData32) :
    hashCount h l₁ ≤ hashCount h l₂ := by
  have hle : (l₁ : Multiset UserOperationInfo) ≤ (l₂ : Multiset UserOperationInfo) :=
    Multiset.le_iff_count.mpr (fun a => by simpa using hc a)
  have hmap :
      Multiset.map (fun op => op.userOperationHash) (l₁ : Multiset UserOperationInfo) ≤
        Multiset.map (fun op => op.userOperationHash) (l₂ : Multiset UserOperationInfo) :=
    Multiset.map_le_map hle
  have hcnt := Multiset.count_le_of_le h hmap
  simpa [hashCount, hashes] using hcnt

/-- The promotion result never holds more operations of a given hash than
the outstanding snapshot. -/
theorem promoteAll_hashCount_le (oracle : Address → Nat → CallResult)
    (outs : List UserOperationInfo) (pairs : List (Address × Nat))
    (hnd : pairs.Nodup) (h : HexData32) :
    hashCount h (promoteAll oracle outs pairs) ≤ hashCount h outs :=
  hashCount_le_of_count_le _ _ (fun x => promoteAll_count_le oracle outs x pairs hnd) h

/-- Every single mempool call preserves the per-hash domination of
available-outstanding by outstanding. -/
theorem applyOp_preserves_inv (s : MemoryStore) (o : MempoolOp)
    (hs : ∀ h, hashCount h s.availableOutstanding ≤ hashCount h s.outstanding) :
    ∀ h, hashCount h (applyOp s o).availableOutstanding ≤
      hashCount h (applyOp s o).outstanding := by
  cases o with
  | addOutstanding op =>
      intro h
      show hashCount h s.availableOutstanding ≤ hashCount h (s.outstanding ++ [op])
      rw [hashCount_append]
      exact Nat.le_add_right_of_le (hs h)
  | addProcessing op => exact hs
  | addSubmitted op => exact hs
  | removeProcessing h' =>
      intro h
      show hashCount h (removeProcessing h' s).availableOutstanding ≤
        hashCount h (removeProcessing h' s).outstanding
      unfold removeProcessing
      split <;> exact hs h
  | removeSubmitted h' =>
      intro h
      show hashCount h (removeSubmitted h' s).availableOutstanding ≤
        hashCount h (removeSubmitted h' s).outstanding
      unfold removeSubmitted
      split <;> exact hs h
  | removeOutstanding h' =>
      intro h
      show hashCount h (removeOutstanding h' s).availableOutstanding ≤
        hashCount h (removeOutstanding h' s).outstanding
      unfold removeOutstanding
      by_cases h1 : h' ∈ hashes s.outstanding
      · rw [if_pos h1]
        by_cases h2 : h' ∈ hashes s.availableOutstanding
        · rw [if_pos h2]
          show hashCount h (removeFirstByHash h' s.availableOutstanding) ≤
            hashCount h (removeFirstByHash h' s.outstanding)
          rcases eq_or_ne h h' with rfl | hne
          · have ha := hashCount_removeFirstByHash_self h s.availableOutstanding h2
            have hb := hashCount_removeFirstByHash_self h s.outstanding h1
            have hc := hs h
            omega
          · rw [hashCount_removeFirstByHash_ne h h' hne,
              hashCount_removeFirstByHash_ne h h' hne]
            exact hs h
        · rw [if_neg h2]
          show hashCount h s.availableOutstanding ≤
            hashCount h (removeFirstByHash h' s.outstanding)
          rcases eq_or_ne h h' with rfl | hne
          · have ha : hashCount h s.availableOutstanding = 0 := by
              by_contra hcon
              exact h2 ((mem_hashes_iff_pos h _).mpr (Nat.pos_of_ne_zero hcon))
            omega
          · rw [hashCount_removeFirstByHash_ne h h' hne]
            exact hs h
      · rw [if_neg h1]
        exact hs h
  | updateAvailable mc =>
      cases mc with
      | throw => exact hs
      | results oracle =>
          intro h
          exact promoteAll_hashCount_le oracle s.outstanding _ (nodup_jsSetDedup _) h

/-- The per-hash domination holds after any sequence of mempool calls from
the empty mempool. -/
theorem execOps_inv (ops : List MempoolOp) :
    ∀ h, hashCount h (execOps ops).availableOutstanding ≤
      hashCount h (execOps ops).outstanding := by
  suffices H : ∀ (ops : List MempoolOp) (s : MemoryStore),
      (∀ h, hashCount h s.availableOutstanding ≤ hashCount h s.outstanding) →
      ∀ h, hashCount h (ops.foldl applyOp s).availableOutstanding ≤
        hashCount h (ops.foldl applyOp s).outstanding by
    exact H ops emptyStore (fun h => Nat.le_refl _)
  intro ops
  induction ops with
  | nil => intro s hs; exact hs
  | cons o os ih => intro s hs; exact ih _ (applyOp_preserves_inv s o hs)

/-- C2: after every finite sequence of add/remove/update calls from the
empty mempool (`clear` excluded), every hash present in
available-outstanding is also present in outstanding, and
`removeOutstanding h` on such a state removes the first operation with
hash `h` from available-outstanding whenever `h` is there. -/
theorem mempoolAvailableSubsetOutstanding (ops : List MempoolOp) (h : HexData32) :
    (h ∈ hashes (execOps ops).availableOutstanding →
        h ∈ hashes (execOps ops).outstanding) ∧
      (h ∈ hashes (execOps ops).availableOutstanding →
        (removeOutstanding h (execOps ops)).availableOutstanding =
          removeFirstByHash h (execOps ops).availableOutstanding) := by
  have hinv := execOps_inv ops
  have hsub : h ∈ hashes (execOps ops).availableOutstanding →
      h ∈ hashes (execOps ops).outstanding := by
    intro hmem
    exact (mem_hashes_iff_pos _ _).mpr
      (Nat.lt_of_lt_of_le ((mem_hashes_iff_pos _ _).mp hmem) (hinv h))
  refine ⟨hsub, fun hmem => ?_⟩
  unfold removeOutstanding
  rw [if_pos (hsub hmem), if_pos hmem]

/-- C2 witness: add one operation, reconcile with a matching oracle, and
both membership facts hold at hash `h1`. -/
theorem mempoolAvailableSubsetOutstanding_witness :
    ("h1" : HexData32) ∈ hashes (execOps [MempoolOp.addOutstanding ⟨⟨"A", 5⟩, "h1"⟩,
        MempoolOp.updateAvailable (MulticallOutcome.results
          (fun _ _ => CallResult.success 5))]).availableOutstanding ∧
      ("h1" : HexData32) ∈ hashes (execOps [MempoolOp.addOutstanding ⟨⟨"A", 5⟩, "h1"⟩,
        MempoolOp.updateAvailable (MulticallOutcome.results
          (fun _ _ => CallResult.success 5))]).outstanding :=
  ⟨by decide,
    (mempoolAvailableSubsetOutstanding [MempoolOp.addOutstanding ⟨⟨"A", 5⟩, "h1"⟩,
        MempoolOp.updateAvailable (MulticallOutcome.results
          (fun _ _ => CallResult.success 5))] "h1").1 (by decide)⟩

/-! ### Fee-queue invariant lemmas -/

/-- One `saveFee` step keeps the queue bounded, keeps its timestamps
non-decreasing, and keeps every stored timestamp at most the supplied
timestamp, provided the supplied timestamp is at least every previously
supplied one (`b`). -/
theorem saveFee_step (M : Nat) (hM : 1 ≤ M) (slice : Int) (q : List FeeEntry)
    (v t b : Int) (hlen : q.length ≤ M) (hsort : sortedByTimestamp q)
    (hbound : ∀ e ∈ q, e.timestamp ≤ b) (hbt : b ≤ t) :
    (saveFee M slice q v t).length ≤ M ∧
      sortedByTimestamp (saveFee M slice q v t) ∧
      ∀ e ∈ saveFee M slice q v t, e.timestamp ≤ t := by
  have happend : ∀ q' : List FeeEntry, q'.Sublist q → q'.length + 1 ≤ M →
      ((q' ++ [⟨t, v⟩] : List FeeEntry).length ≤ M ∧
        sortedByTimestamp (q' ++ [⟨t, v⟩]) ∧
        ∀ e ∈ q' ++ [(⟨t, v⟩ : FeeEntry)], e.timestamp ≤ t) := by
    intro q' hsub hlen'
    refine ⟨by simpa using hlen', ?_, ?_⟩
    · rw [sortedByTimestamp, List.pairwise_append]
      refine ⟨hsort.sublist hsub, List.pairwise_singleton _ _, ?_⟩
      intro a ha e he
      rw [List.mem_singleton] at he
      subst he
      exact le_trans (hbound a (hsub.mem ha)) hbt
    · intro e he
      rcases List.mem_append.mp he with he | he
      · exact le_trans (hbound e (hsub.mem he)) hbt
      · rw [List.mem_singleton] at he
        subst he
        exact le_rfl
  rcases hq : q.getLast? with - | last
  · have hqnil : q = [] := by
      cases q with
      | nil => rfl
      | cons b bs => simp [List.getLast?] at hq
    subst hqnil
    have hres : saveFee M slice [] v t = [] ++ [⟨t, v⟩] := by
      simp [saveFee]
    rw [hres]
    exact happend [] (List.Sublist.refl _) (by simpa using hM)
  · have hlast : last ∈ q := List.mem_of_mem_getLast? hq
    have hqpos : 1 ≤ q.length := List.length_pos.mpr (List.ne_nil_of_mem hlast)
    simp only [saveFee, hq]
    by_cases hsl : slice ≤ t - last.timestamp
    · rw [if_pos hsl]
      by_cases hcap : M ≤ q.length
      · rw [if_pos hcap]
        exact happend (q.drop 1) (List.drop_sublist 1 q)
          (by rw [List.length_drop]; omega)
      · rw [if_neg hcap]
        exact happend q (List.Sublist.refl q) (by omega)
    · rw [if_neg hsl]
      by_cases hlt : v < last.value
      · rw [if_pos hlt]
        exact happend q.dropLast (List.dropLast_sublist q)
          (by rw [List.length_dropLast]; omega)
      · rw [if_neg hlt]
        exact ⟨hlen, hsort, fun e he => le_trans (hbound e he) hbt⟩

/-- The Arbitrum `saveL1BaseFee` step satisfies the same invariant (zero
base fees are skipped). -/
theorem saveL1BaseFee_step (M : Nat) (hM : 1 ≤ M) (q : List FeeEntry)
    (v t b : Int) (hlen : q.length ≤ M) (hsort : sortedByTimestamp q)
    (hbound : ∀ e ∈ q, e.timestamp ≤ b) (hbt : b ≤ t) :
    (saveL1BaseFee M q v t).length ≤ M ∧
      sortedByTimestamp (saveL1BaseFee M q v t) ∧
      ∀ e ∈ saveL1BaseFee M q v t, e.timestamp ≤ t := by
  by_cases hv : v = 0
  · rw [saveL1BaseFee, if_pos hv]
    exact ⟨hlen, hsort, fun e he => le_trans (hbound e he) hbt⟩
  · rw [saveL1BaseFee, if_neg hv]
    exact saveFee_step M hM 15000 q v t b hlen hsort hbound hbt

/-- Folding any save step that satisfies the single-step invariant over a
timestamp-sorted batch preserves boundedness and sortedness. -/
theorem foldSaves_inv (M : Nat) (step : List FeeEntry → Int → Int → List FeeEntry)
    (hstep : ∀ (q : List FeeEntry) (v t b : Int), q.length ≤ M → sortedByTimestamp q →
      (∀ e ∈ q, e.timestamp ≤ b) → b ≤ t →
      (step q v t).length ≤ M ∧ sortedByTimestamp (step q v t) ∧
        ∀ e ∈ step q v t, e.timestamp ≤ t) :
    ∀ (saves : List (Int × Int)) (q : List FeeEntry) (b : Int),
      q.length ≤ M → sortedByTimestamp q → (∀ e ∈ q, e.timestamp ≤ b) →
      List.Chain (fun a c => a ≤ c) b (saves.map Prod.snd) →
      (saves.foldl (fun q vt => step q vt.1 vt.2) q).length ≤ M ∧
        sortedByTimestamp (saves.foldl (fun q vt => step q vt.1 vt.2) q) := by
  intro saves
  induction saves with
  | nil => intro q b h1 h2 _ _; exact ⟨h1, h2⟩
  | cons vt rest ih =>
      intro q b h1 h2 h3 hchain
      rw [List.map_cons] at hchain
      cases hchain with
      | cons hb hrest =>
          obtain ⟨l1, l2, l3⟩ := hstep q vt.1 vt.2 b h1 h2 h3 hb
          exact ih _ vt.2 l1 l2 l3 hrest

/-- A sorted batch yields the `Chain` form needed by `foldSaves_inv`,
anchored at its own first timestamp. -/
theorem chain_of_sorted_saves (saves : List (Int × Int))
    (hts : List.Pairwise (fun a c => a.2 ≤ c.2) saves) :
    List.Chain (fun a c => a ≤ c) (saves.map Prod.snd).headI (saves.map Prod.snd) := by
  have hchain : List.Chain' (fun a c => a ≤ c) (saves.map Prod.snd) := by
    rw [List.chain'_map]
    exact hts.chain'
  cases hs : saves.map Prod.snd with
  | nil => exact List.Chain.nil
  | cons t rest =>
      rw [hs] at hchain
      exact List.Chain.cons le_rfl hchain

/-- C8 counterexample: a zero-valued save into an Arbitrum base-fee queue
a full slice window after the last entry does not append — it is ignored
entirely — contradicting the claim's description of every save. -/
theorem feeQueueZeroSave_counterexample :
    saveL1BaseFee 3 [⟨0, 5⟩] 0 20000 = [⟨0, 5⟩] ∧
      ([⟨0, 5⟩] : List FeeEntry) ≠ [⟨0, 5⟩, ⟨20000, 0⟩] := by
  decide

/-- C8 amended: for every sequence of saves with non-decreasing timestamps
and `maxQueueSize ≥ 1`, both the generic fee queues and the Arbitrum
queues stay bounded by `maxQueueSize` with non-decreasing timestamps; a
nonzero save within one slice window of the last entry overwrites the last
entry exactly when its value is strictly lower and is otherwise discarded,
a nonzero save at least one window later appends (evicting the oldest
entry at capacity), and zero-valued saves into the Arbitrum queues are
ignored entirely. -/
theorem feeQueueInvariantAndStep (maxQueueSize : Nat) (slice : Int)
    (saves : List (Int × Int)) (hM : 1 ≤ maxQueueSize)
    (hts : List.Pairwise (fun a c => a.2 ≤ c.2) saves) :
    ((runSaves maxQueueSize slice saves).length ≤ maxQueueSize ∧
        sortedByTimestamp (runSaves maxQueueSize slice saves)) ∧
      ((runSavesL1 maxQueueSize saves).length ≤ maxQueueSize ∧
        sortedByTimestamp (runSavesL1 maxQueueSize saves)) ∧
      (∀ (q : List FeeEntry) (last : FeeEntry) (v t : Int), q.getLast? = some last →
        t - last.timestamp < slice →
        (v < last.value → saveFee maxQueueSize slice q v t = q.dropLast ++ [⟨t, v⟩]) ∧
          (¬ v < last.value → saveFee maxQueueSize slice q v t = q)) ∧
      (∀ (q : List FeeEntry) (last : FeeEntry) (v t : Int), q.getLast? = some last →
        slice ≤ t - last.timestamp →
        saveFee maxQueueSize slice q v t =
          (if maxQueueSize ≤ q.length then q.drop 1 else q) ++ [⟨t, v⟩]) ∧
      (∀ (q : List FeeEntry) (t : Int), saveL1BaseFee maxQueueSize q 0 t = q) := by
  refine ⟨?_, ?_, ?_, ?_, ?_⟩
  · exact foldSaves_inv maxQueueSize _
      (fun q v t b => saveFee_step maxQueueSize hM slice q v t b)
      saves [] _ (by simp) (List.Pairwise.nil) (by simp)
      (chain_of_sorted_saves saves hts)
  · exact foldSaves_inv maxQueueSize _
      (fun q v t b => saveL1BaseFee_step maxQueueSize hM q v t b)
      saves [] _ (by simp) (List.Pairwise.nil) (by simp)
      (chain_of_sorted_saves saves hts)
  · intro q last v t hq hwin
    constructor
    · intro hlt
      simp only [saveFee, hq]
      rw [if_neg (not_le.mpr hwin), if_pos hlt]
    · intro hlt
      simp only [saveFee, hq]
      rw [if_neg (not_le.mpr hwin), if_neg hlt]
  · intro q last v t hq hwin
    simp only [saveFee, hq]
    rw [if_pos hwin]
  · intro q t
    rw [saveL1BaseFee, if_pos rfl]

/-- C8 amended, witness: the spec's S5 scenario — window size 3, saves
`(10, t=0)`, `(8, t=500)`, `(9, t=1500)` — stays bounded and sorted (the
resulting queue is `[(8, 500), (9, 1500)]`). -/
theorem feeQueueInvariantAndStep_witness :
    (runSaves 3 1000 [(10, 0), (8, 500), (9, 1500)]).length ≤ 3 ∧
      sortedByTimestamp (runSaves 3 1000 [(10, 0), (8, 500), (9, 1500)]) :=
  (feeQueueInvariantAndStep 3 1000 [(10, 0), (8, 500), (9, 1500)] (by decide)
      (by decide)).1

end AltoSpec
